import Mathlib

/-!
Verification of the fswalker diff/trust engine against its specification.

The Go sources (`fswalker.go`, `reporter.go`) are shallowly embedded here:
strings are Lean `String`s (lists of characters; the relevant separator
character is ASCII so byte/char indexing agree), Go `nil` pointers become
`Option`, Go `(value, error)` pairs become `Except` or explicit pairs, and a
runtime panic (out-of-bounds index, nil dereference) is modelled as `Option`
returning `none`.  Protobuf timestamps are modelled as `Option Int`
(seconds; `nil` converts to the epoch `0` exactly as `AsTime` does), and the
report's time rendering is modelled as decimal rendering, which like the
source rendering is an injective function of the modelled time value.
-/

deriving instance DecidableEq for Except

namespace Fswalker

/-- The Unix path separator used by `path/filepath` on the target platform. -/
def sepChar : Char := '/'

/-- Split a character list on the separator.  Models the component view of a
Go path string: `splitSep s` is `strings.Split(s, "/")` on characters. -/
def splitSep : List Char → List (List Char)
  | [] => [[]]
  | c :: cs =>
    if c = sepChar then [] :: splitSep cs
    else
      match splitSep cs with
      | [] => [[c]]
      | p :: ps => (c :: p) :: ps

/-- Join components with the separator (inverse of `splitSep`). -/
def joinSep : List (List Char) → List Char
  | [] => []
  | [p] => p
  | p :: ps => p ++ sepChar :: joinSep ps

/-- The component-processing loop of Go's `path/filepath.Clean` (Unix rules):
drop empty and `.` components; on `..` pop a previous component, or drop it at
a rooted path's root, or keep it at the front of a relative path.  `acc` is
the stack of already-emitted components (most recent first). -/
def cleanLoop (rooted : Bool) : List (List Char) → List (List Char) → List (List Char)
  | [], acc => acc.reverse
  | p :: rest, acc =>
    if p = [] ∨ p = ['.'] then cleanLoop rooted rest acc
    else if p = ['.', '.'] then
      match acc with
      | [] => if rooted then cleanLoop rooted rest [] else cleanLoop rooted rest [['.', '.']]
      | q :: acc' =>
        if q = ['.', '.'] then cleanLoop rooted rest (p :: q :: acc')
        else cleanLoop rooted rest acc'
    else cleanLoop rooted rest (p :: acc)

/-- Whether a path is rooted (starts with the separator). -/
def isRooted : List Char → Bool
  | [] => false
  | c :: _ => c = sepChar

/-- Render the cleaned components back into a path. -/
def renderClean (rooted : Bool) (parts : List (List Char)) : List Char :=
  if rooted then sepChar :: joinSep parts
  else if parts = [] then ['.']
  else joinSep parts

/-- Go's `path/filepath.Clean` for Unix separators: the four documented
rewrite rules (collapse separators, drop `.`, resolve `name/..`, drop `..`
at the root), realised by the component stack above. -/
def cleanList (s : List Char) : List Char :=
  renderClean (isRooted s) (cleanLoop (isRooted s) (splitSep s) [])

/-- `NormalizePath` from `fswalker.go`: the cleaned path, with a separator
appended when `isDir` holds and the cleaned path does not already end in one.
(The source indexes the last byte of the cleaned path, which is never empty;
`getLast?` models that access.) -/
def NormalizePath (path : String) (isDir : Bool) : String :=
  let p := cleanList path.data
  if isDir ∧ p.getLast? ≠ some sepChar then String.mk (p ++ [sepChar])
  else String.mk p

/-- Go's `path/filepath.Dir` for Unix: drop everything after the last
separator, then clean the remainder (`.` when there is no separator). -/
def Dir (path : String) : String :=
  String.mk (cleanList ((path.data.reverse.dropWhile (fun c => c ≠ sepChar)).reverse))

/-- `isExcluded` from the walker source: a path is excluded when it equals a
listed entry exactly, or when an entry ends in the separator and is a prefix
of the path's directory with a trailing separator appended.  The source
indexes `e[len(e)-1]` unconditionally once `path == e` fails; for an empty
entry that access panics, modelled as `none`. -/
def isExcluded (path : String) (excluded : List String) : Option Bool :=
  match excluded with
  | [] => some false
  | e :: rest =>
    if path = e then some true
    else
      match e.data.getLast? with
      | none => none
      | some c =>
        if c = sepChar ∧ e.data.isPrefixOf ((Dir path).data ++ [sepChar]) then some true
        else isExcluded path rest

/-! ## Data model (`proto/fswalker/fswalker.proto`, fields used by the reporter) -/

/-- Fingerprint methods (closed enumeration from the proto). -/
inductive FpMethod where
  | UNKNOWN
  | SHA256
  deriving DecidableEq, Repr

/-- Rendering of a fingerprint method by the `%s` format verb. -/
def FpMethod.render : FpMethod → String
  | .UNKNOWN => "UNKNOWN"
  | .SHA256 => "SHA256"

/-- A content fingerprint: method tag plus hex digest value. -/
structure Fingerprint where
  method : FpMethod
  value : String
  deriving DecidableEq, Repr

/-- `FileInfo` block of a `File` record.  The reporter dereferences it
unconditionally (`fb.Info.IsDir` in `Compare`), so it is modelled as always
present.  `modified` is a timestamp, `none` when unset in the proto. -/
structure FileInfo where
  name : String
  size : Int
  mode : Nat
  modified : Option Int
  isDir : Bool
  deriving DecidableEq, Repr

/-- `FileStat` block (platform stat data); only the fields the reporter
compares are modelled.  The whole block is optional in a `File`. -/
structure FileStat where
  uid : Nat
  gid : Nat
  ctime : Option Int
  mtime : Option Int
  deriving DecidableEq, Repr

/-- A `File` record of a Walk. -/
structure File where
  version : Nat
  path : String
  info : FileInfo
  stat : Option FileStat
  fingerprint : List Fingerprint
  deriving DecidableEq, Repr

/-- A `Walk` (inventory): the fields the reporter's comparison reads. -/
structure Walk where
  id : String
  version : Nat
  hostname : String
  startWalk : Option Int
  stopWalk : Option Int
  file : List File
  deriving DecidableEq, Repr

/-- `ReportConfig`: the exclusion list consumed by `Compare`. -/
structure ReportConfig where
  exclude : List String
  deriving DecidableEq, Repr

/-- `ActionData` from `reporter.go`: a diff between two files. -/
structure ActionData where
  before : Option File
  after : Option File
  diff : String
  err : Option String
  deriving DecidableEq, Repr

/-- `Report`: the four classification lists of a comparison. -/
structure Report where
  added : List ActionData
  deleted : List ActionData
  modified : List ActionData
  errors : List ActionData
  deriving DecidableEq, Repr

/-- Protobuf `Timestamp.AsTime`: a `nil` timestamp converts to the epoch. -/
def asTime (t : Option Int) : Int := t.getD 0

/-! ## Field-level diffs (`reporter.go`) -/

/-- `timestampDiff`: empty when both timestamps are `nil` or the converted
times are equal; otherwise the rendered `before => after` delta.  (The
source's error return is always `nil` and is omitted.) -/
def timestampDiff (bt ta : Option Int) : String :=
  match bt, ta with
  | none, none => ""
  | _, _ =>
    if asTime bt = asTime ta then ""
    else toString (asTime bt) ++ " => " ++ toString (asTime ta)

/-- `diffFileInfo`: compares name, size, mode, is_dir, then mtime.  Both
info blocks are present whenever this is reached (see `FileInfo`). -/
def diffFileInfo (fib fia : FileInfo) : List String :=
  let d1 := if fib.name ≠ fia.name then ["name: " ++ fib.name ++ " => " ++ fia.name] else []
  let d2 := if fib.size ≠ fia.size then ["size: " ++ toString fib.size ++ " => " ++ toString fia.size] else []
  let d3 := if fib.mode ≠ fia.mode then ["mode: " ++ toString fib.mode ++ " => " ++ toString fia.mode] else []
  let d4 := if fib.isDir ≠ fia.isDir then ["is_dir: " ++ toString fib.isDir ++ " => " ++ toString fia.isDir] else []
  let base := d1 ++ d2 ++ d3 ++ d4
  match fib.modified, fia.modified with
  | none, none => base
  | _, _ =>
    let d := timestampDiff fib.modified fia.modified
    if d ≠ "" then base ++ ["mtime: " ++ d] else base

/-- `diffFileStat`: compares uid and gid always; a ctime delta is appended
only when it is non-empty and differs from the mtime delta.  Exactly one
side being `nil` dereferences a nil pointer in the source (`fsb.Uid`),
modelled as `none`. -/
def diffFileStat (fsb fsa : Option FileStat) : Option (List String) :=
  match fsb, fsa with
  | none, none => some []
  | some b, some a =>
    let d1 := if b.uid ≠ a.uid then ["uid: " ++ toString b.uid ++ " => " ++ toString a.uid] else []
    let d2 := if b.gid ≠ a.gid then ["gid: " ++ toString b.gid ++ " => " ++ toString a.gid] else []
    let base := d1 ++ d2
    let cdiff := timestampDiff b.ctime a.ctime
    some (if cdiff = "" then base
      else if timestampDiff b.mtime a.mtime ≠ cdiff then base ++ ["ctime: " ++ cdiff]
      else base)
  | _, _ => none

/-- The fingerprint block of `diffFile`: differences are emitted only when
the before file had a fingerprint; a missing after fingerprint yields one
disappearance line; otherwise method and value are compared separately. -/
def fingerprintDiffs (fb fa : List Fingerprint) : List String :=
  match fb with
  | [] => []
  | b :: _ =>
    match fa with
    | [] => ["fingerprint: " ++ b.value ++ " => "]
    | a :: _ =>
      (if b.method ≠ a.method then ["fingerprint-method: " ++ b.method.render ++ " => " ++ a.method.render] else [])
        ++ (if b.value ≠ a.value then ["fingerprint: " ++ b.value ++ " => " ++ a.value] else [])

/-- String order used when sorting the diff lines (`slices.Sort`). -/
def sortStrings (l : List String) : List String :=
  List.insertionSort (fun x y : String => x ≤ y) l

/-- `diffFile`: errors on version or path mismatch (returning an empty diff),
otherwise joins the sorted fingerprint/info/stat diff lines.  The outer
`Option` is the panic layer inherited from `diffFileStat`. -/
def diffFile (before after : File) : Option (Except String String) :=
  if before.version ≠ after.version then
    some (Except.error ("file format versions don't match: before(" ++ toString before.version ++ ") != after(" ++ toString after.version ++ ")"))
  else if before.path ≠ after.path then
    some (Except.error ("file paths don't match: before(" ++ before.path ++ ") != after(" ++ after.path ++ ")"))
  else
    match diffFileStat before.stat after.stat with
    | none => none
    | some fsDiffs =>
      some (Except.ok (String.intercalate "\n"
        (sortStrings (fingerprintDiffs before.fingerprint after.fingerprint
          ++ diffFileInfo before.info after.info ++ fsDiffs))))

/-! ## Comparison (`Compare` and `sanityCheck`) -/

/-- `sanityCheck` from `reporter.go`; `some msg` is the error case. -/
def sanityCheck (before after : Option Walk) : Option String :=
  match after with
  | none => some "either hostname, reviewFile and walkPath OR at least afterFile need to be specified"
  | some wa =>
    match before with
    | none => none
    | some wb =>
      if wb.id = wa.id then some ("ID of both Walks is the same: " ++ wb.id)
      else if wb.version ≠ wa.version then
        some ("versions don't match: before(" ++ toString wb.version ++ ") != after(" ++ toString wa.version ++ ")")
      else if wb.hostname ≠ wa.hostname then
        some ("you're comparing apples and oranges: " ++ wb.hostname ++ " != " ++ wa.hostname)
      else if asTime wa.startWalk < asTime wb.stopWalk then
        some ("earlier Walk indicates it ended (" ++ toString (asTime wb.stopWalk) ++ ") after later Walk (" ++ toString (asTime wa.startWalk) ++ ") has started")
      else none

/-- Insert-or-overwrite into an association list (Go map assignment). -/
def insertKV (m : List (String × File)) (k : String) (v : File) : List (String × File) :=
  match m with
  | [] => [(k, v)]
  | (k', v') :: rest => if k' = k then (k, v) :: rest else (k', v') :: insertKV rest k v

/-- First-match lookup in an association list (Go map read). -/
def lookupKV (m : List (String × File)) (k : String) : Option File :=
  match m with
  | [] => none
  | (k', v) :: rest => if k' = k then some v else lookupKV rest k

/-- The map-building loops of `Compare`: each file is stored under its
normalized path, with the path field rewritten to the normalized form. -/
def buildMap (files : List File) : List (String × File) :=
  files.foldl (fun m f =>
    let f' := { f with path := NormalizePath f.path f.info.isDir }
    insertKV m f'.path f') []

/-- The before-side loop of `Compare`, producing the Deleted, Modified and
Errors entries in iteration order; `none` is a propagated panic. -/
def classifyB (ex : List String) (wa : List (String × File)) :
    List (String × File) → Option (List ActionData × List ActionData × List ActionData)
  | [] => some ([], [], [])
  | (p, fb) :: rest =>
    match isExcluded p ex with
    | none => none
    | some exq =>
      match classifyB ex wa rest with
      | none => none
      | some (ds, ms, es) =>
        if exq then some (ds, ms, es)
        else
          match lookupKV wa p with
          | none => some (⟨some fb, none, "", none⟩ :: ds, ms, es)
          | some fa =>
            match diffFile fb fa with
            | none => none
            | some (Except.error e) => some (ds, ms, ⟨some fb, some fa, "", some e⟩ :: es)
            | some (Except.ok d) =>
              if d ≠ "" then some (ds, ⟨some fb, some fa, d, none⟩ :: ms, es)
              else some (ds, ms, es)

/-- The after-side loop of `Compare`, producing the Added entries. -/
def classifyA (ex : List String) (wb : List (String × File)) :
    List (String × File) → Option (List ActionData)
  | [] => some []
  | (p, fa) :: rest =>
    match isExcluded p ex with
    | none => none
    | some exq =>
      match classifyA ex wb rest with
      | none => none
      | some added =>
        if exq then some added
        else
          match lookupKV wb p with
          | some _ => some added
          | none => some (⟨none, some fa, "", none⟩ :: added)

/-- Sort key for Added entries: the after-file path (always present there). -/
def afterPathD (ad : ActionData) : String := (ad.after.map File.path).getD ""

/-- Sort key for the other three lists: the before-file path. -/
def beforePathD (ad : ActionData) : String := (ad.before.map File.path).getD ""

/-- The final per-list sorting of `Compare` (`slices.SortFunc` on paths). -/
def sortByKey (key : ActionData → String) (l : List ActionData) : List ActionData :=
  List.insertionSort (fun x y => key x ≤ key y) l

/-- `Compare` from `reporter.go`: sanity check, index both walks by
normalized path, classify, and sort each list by path.  The outer `Option`
is the panic layer (empty exclusion entry or one-sided stat block); the
`Except` layer is the returned error. -/
def Compare (cfg : ReportConfig) (before after : Option Walk) : Option (Except String Report) :=
  match sanityCheck before after with
  | some e => some (Except.error e)
  | none =>
    match after with
    | none => none
    | some wa =>
      let wbMap := match before with
        | none => []
        | some wb => buildMap wb.file
      let waMap := buildMap wa.file
      match classifyB cfg.exclude waMap wbMap with
      | none => none
      | some (ds, ms, es) =>
        match classifyA cfg.exclude wbMap waMap with
        | none => none
        | some added =>
          some (Except.ok
            { added := sortByKey afterPathD added
              deleted := sortByKey beforePathD ds
              modified := sortByKey beforePathD ms
              errors := sortByKey beforePathD es })

/-! ## Trust chain (`ReadLastGoodWalk`, `verifyFingerprint`) -/

/-- A `Review` entry: pinned walk id, storage reference and fingerprint. -/
structure Review where
  walkID : String
  walkReference : String
  fingerprint : Fingerprint
  deriving DecidableEq, Repr

/-- The `Reviews` store: hostname-keyed review entries. -/
structure Reviews where
  review : List (String × Review)
  deriving DecidableEq, Repr

/-- Hostname lookup in the review store. -/
def lookupReview (m : List (String × Review)) (k : String) : Option Review :=
  match m with
  | [] => none
  | (k', v) :: rest => if k' = k then some v else lookupReview rest k

/-- A loaded walk file: path, parsed walk, fingerprint of the raw bytes. -/
structure WalkFile where
  path : String
  walk : Walk
  fingerprint : Fingerprint
  deriving DecidableEq, Repr

/-- `Reporter.fingerprint`: SHA-256 over the raw bytes; the hash itself is a
parameter of the embedding (an arbitrary bytes-to-hex function). -/
def fingerprintOf (hash : List Nat → String) (b : List Nat) : Fingerprint :=
  ⟨FpMethod.SHA256, hash b⟩

/-- `verifyFingerprint` from `reporter.go`; `some msg` is the error case. -/
def verifyFingerprint (goodFp checkFp : Fingerprint) : Option String :=
  if checkFp.method ≠ goodFp.method then
    some ("fingerprint method " ++ checkFp.method.render ++ " doesn't match " ++ goodFp.method.render)
  else if goodFp.method = FpMethod.UNKNOWN then some "undefined fingerprint method"
  else if goodFp.value = "" then some "empty fingerprint value"
  else if checkFp.value ≠ goodFp.value then
    some ("fingerprint " ++ checkFp.value ++ " doesn't match " ++ goodFp.value)
  else none

/-- `ReadWalk`: read the raw bytes, unmarshal them and fingerprint them.
`readFile` and `unmarshal` are the I/O and codec collaborators. -/
def ReadWalk (hash : List Nat → String) (readFile : String → Except String (List Nat))
    (unmarshal : List Nat → Except String Walk) (path : String) : Except String WalkFile :=
  match readFile path with
  | Except.error e => Except.error e
  | Except.ok b =>
    match unmarshal b with
    | Except.error e => Except.error e
    | Except.ok w => Except.ok ⟨path, w, fingerprintOf hash b⟩

/-- `ReadLastGoodWalk`: resolve the review entry for the hostname, load the
referenced walk, verify the pinned fingerprint and the pinned walk id.
The result mirrors Go's `(walkfile, error)` pair. -/
def ReadLastGoodWalk (hash : List Nat → String) (readFile : String → Except String (List Nat))
    (unmarshal : List Nat → Except String Walk) (reviews : Except String Reviews)
    (hostname : String) : Option WalkFile × Option String :=
  match reviews with
  | Except.error e => (none, some e)
  | Except.ok rvs =>
    match lookupReview rvs.review hostname with
    | none => (none, none)
    | some rvw =>
      match ReadWalk hash readFile unmarshal rvw.walkReference with
      | Except.error e => (none, some e)
      | Except.ok wf =>
        match verifyFingerprint rvw.fingerprint wf.fingerprint with
        | some e => (some wf, some e)
        | none =>
          if wf.walk.id ≠ rvw.walkID then
            (some wf, some ("walk ID doesn't match: " ++ wf.walk.id ++ " (from " ++ rvw.walkReference ++ ") != " ++ rvw.walkID))
          else (some wf, none)

/-! ## Lemmas about the path model -/

/-- A cleaned path component: non-empty, separator-free, not `.` or `..`. -/
def isName (p : List Char) : Prop :=
  p ≠ [] ∧ sepChar ∉ p ∧ p ≠ ['.'] ∧ p ≠ ['.', '.']

theorem splitSep_ne_nil (s : List Char) : splitSep s ≠ [] := by
  cases s with
  | nil => simp [splitSep]
  | cons c cs =>
    by_cases h : c = sepChar
    · simp [splitSep, h]
    · simp only [splitSep, if_neg h]
      cases hs : splitSep cs with
      | nil => simp
      | cons p ps => simp

theorem splitSep_no_sep (s : List Char) : ∀ p ∈ splitSep s, sepChar ∉ p := by
  induction s with
  | nil => simp [splitSep]
  | cons c cs ih =>
    by_cases h : c = sepChar
    · simp only [splitSep, if_pos h]
      intro p hp
      rcases List.mem_cons.mp hp with h1 | h2
      · simp [h1]
      · exact ih p h2
    · simp only [splitSep, if_neg h]
      cases hs : splitSep cs with
      | nil => exact absurd hs (splitSep_ne_nil cs)
      | cons q qs =>
        intro p hp
        rcases List.mem_cons.mp hp with h1 | h2
        · subst h1
          intro hc
          rcases List.mem_cons.mp hc with h3 | h4
          · exact h h3.symm
          · exact ih q (hs ▸ List.mem_cons_self q qs) h4
        · exact ih p (hs ▸ List.mem_cons_of_mem q h2)

theorem splitSep_of_no_sep (p : List Char) (h : sepChar ∉ p) : splitSep p = [p] := by
  induction p with
  | nil => rfl
  | cons c cs ih =>
    have hc : c ≠ sepChar := fun hc => h (hc ▸ List.mem_cons_self c cs)
    have hcs : sepChar ∉ cs := fun hm => h (List.mem_cons_of_mem c hm)
    simp [splitSep, if_neg hc, ih hcs]

theorem splitSep_append_sep (p t : List Char) (h : sepChar ∉ p) :
    splitSep (p ++ sepChar :: t) = p :: splitSep t := by
  induction p with
  | nil => simp [splitSep]
  | cons c cs ih =>
    have hc : c ≠ sepChar := fun hc => h (hc ▸ List.mem_cons_self c cs)
    have hcs : sepChar ∉ cs := fun hm => h (List.mem_cons_of_mem c hm)
    simp only [List.cons_append, splitSep, if_neg hc, List.append_eq, ih hcs]

theorem joinSep_ne_nil (p : List Char) (ps : List (List Char)) (hp : p ≠ []) :
    joinSep (p :: ps) ≠ [] := by
  cases ps with
  | nil => simpa [joinSep] using hp
  | cons q qs => simp [joinSep, hp]

theorem splitSep_joinSep (parts : List (List Char)) (hne : parts ≠ [])
    (h : ∀ p ∈ parts, sepChar ∉ p) : splitSep (joinSep parts) = parts := by
  induction parts with
  | nil => exact absurd rfl hne
  | cons p ps ih =>
    cases ps with
    | nil => simpa [joinSep] using splitSep_of_no_sep p (h p (List.mem_cons_self p []))
    | cons q qs =>
      have hp : sepChar ∉ p := h p (List.mem_cons_self _ _)
      have hrest : ∀ r ∈ q :: qs, sepChar ∉ r := fun r hr => h r (List.mem_cons_of_mem p hr)
      have : joinSep (p :: q :: qs) = p ++ sepChar :: joinSep (q :: qs) := rfl
      rw [this, splitSep_append_sep p _ hp, ih (by simp) hrest]

theorem splitSep_concat_sep (s : List Char) :
    splitSep (s ++ [sepChar]) = splitSep s ++ [[]] := by
  induction s with
  | nil => rfl
  | cons c cs ih =>
    by_cases h : c = sepChar
    · simp [splitSep, h, ih]
    · simp only [List.cons_append, splitSep, if_neg h, List.append_eq]
      rw [ih]
      cases hs : splitSep cs with
      | nil => exact absurd hs (splitSep_ne_nil cs)
      | cons p ps => simp

/-- Canonical shape of cleaned components: a (relative-only) run of `..`
followed by plain names. -/
def canonicalParts (rooted : Bool) (parts : List (List Char)) : Prop :=
  ∃ k names, parts = List.replicate k ['.', '.'] ++ names ∧
    (∀ p ∈ names, isName p) ∧ (rooted = true → k = 0)

theorem cleanLoop_names (rooted : Bool) (names : List (List Char))
    (h : ∀ p ∈ names, isName p) :
    ∀ acc, cleanLoop rooted names acc = acc.reverse ++ names := by
  induction names with
  | nil => intro acc; simp [cleanLoop]
  | cons n rest ih =>
    intro acc
    obtain ⟨h1, _, h3, h4⟩ := h n (List.mem_cons_self _ _)
    have hcond : ¬(n = [] ∨ n = ['.']) := by
      rintro (hc | hc)
      · exact h1 hc
      · exact h3 hc
    have hrest : ∀ p ∈ rest, isName p := fun p hp => h p (List.mem_cons_of_mem n hp)
    simp only [cleanLoop, if_neg hcond, if_neg h4]
    rw [ih hrest (n :: acc)]
    simp

theorem cleanLoop_dots (k : Nat) (l : List (List Char)) :
    ∀ j, cleanLoop false (List.replicate k ['.', '.'] ++ l) (List.replicate j ['.', '.']) =
      cleanLoop false l (List.replicate (k + j) ['.', '.']) := by
  induction k with
  | zero => intro j; simp
  | succ k ih =>
    intro j
    have hcond : ¬((['.', '.'] : List Char) = [] ∨ (['.', '.'] : List Char) = ['.']) := by simp
    rw [List.replicate_succ, List.cons_append]
    simp only [cleanLoop, if_neg hcond, if_pos rfl]
    cases j with
    | zero =>
      simp only [List.replicate, Bool.false_eq_true, if_false, if_true]
      have h1 : ([['.', '.']] : List (List Char)) = List.replicate 1 ['.', '.'] := rfl
      rw [h1, ih 1]
      have h3 : k + 1 + 0 = k + 1 := by omega
      rw [h3, ← List.replicate_succ]
    | succ j =>
      rw [List.replicate_succ]
      simp only [if_pos rfl]
      have h2 : (['.', '.'] :: ['.', '.'] :: List.replicate j ['.', '.'] : List (List Char)) =
          List.replicate (j + 2) ['.', '.'] := by
        rw [List.replicate_succ, List.replicate_succ]
      rw [h2, ih (j + 2)]
      have h3 : k + (j + 2) = k + 1 + (j + 1) := by omega
      rw [h3]
      simp

theorem cleanLoop_canonical (rooted : Bool) (l : List (List Char))
    (hl : ∀ p ∈ l, sepChar ∉ p) :
    ∀ (k : Nat) (names : List (List Char)), (∀ p ∈ names, isName p) →
      (rooted = true → k = 0) →
      canonicalParts rooted
        (cleanLoop rooted l (names.reverse ++ List.replicate k ['.', '.'])) := by
  induction l with
  | nil =>
    intro k names hn hk
    refine ⟨k, names, ?_, hn, hk⟩
    simp [cleanLoop, List.reverse_append]
  | cons p rest ih =>
    intro k names hn hk
    have hp : sepChar ∉ p := hl p (List.mem_cons_self _ _)
    have hrest : ∀ q ∈ rest, sepChar ∉ q := fun q hq => hl q (List.mem_cons_of_mem p hq)
    by_cases h1 : p = [] ∨ p = ['.']
    · simp only [cleanLoop, if_pos h1]
      exact ih hrest k names hn hk
    · by_cases h2 : p = ['.', '.']
      · simp only [cleanLoop, if_neg h1, if_pos h2]
        subst h2
        rcases List.eq_nil_or_concat names with hnil | ⟨ns, q, hq⟩
        · subst hnil
          simp only [List.reverse_nil, List.nil_append]
          cases k with
          | zero =>
            simp only [List.replicate]
            cases rooted with
            | true =>
              simp only [if_true]
              have := ih hrest 0 [] (by simp) (fun _ => rfl)
              simpa using this
            | false =>
              simp only [Bool.false_eq_true, if_false]
              have := ih hrest 1 [] (by simp) (by simp)
              simpa using this
          | succ k' =>
            rw [List.replicate_succ]
            simp only [if_pos rfl]
            have hroot : rooted = true → k' + 2 = 0 := by
              intro hr
              exact absurd (hk hr) (Nat.succ_ne_zero k')
            have hacc : (['.', '.'] :: ['.', '.'] :: List.replicate k' ['.', '.'] :
                List (List Char)) = List.replicate (k' + 2) ['.', '.'] := by
              rw [List.replicate_succ, List.replicate_succ]
            rw [hacc]
            have := ih hrest (k' + 2) [] (by simp) hroot
            simpa using this
        · subst hq
          have hqname : isName q := hn q (by simp)
          have hqne : q ≠ ['.', '.'] := hqname.2.2.2
          have hacc : (ns.concat q).reverse ++ List.replicate k ['.', '.'] =
              q :: (ns.reverse ++ List.replicate k ['.', '.']) := by simp
          rw [hacc]
          simp only [if_neg hqne]
          exact ih hrest k ns (fun r hr => hn r (by simp [hr])) hk
      · have hname : isName p :=
          ⟨fun hc => h1 (Or.inl hc), hp, fun hc => h1 (Or.inr hc), h2⟩
        simp only [cleanLoop, if_neg h1, if_neg h2]
        have hacc : p :: (names.reverse ++ List.replicate k ['.', '.']) =
            (names ++ [p]).reverse ++ List.replicate k ['.', '.'] := by simp
        rw [hacc]
        refine ih hrest k (names ++ [p]) ?_ hk
        intro r hr
        rcases List.mem_append.mp hr with hr1 | hr2
        · exact hn r hr1
        · simp only [List.mem_singleton] at hr2
          exact hr2 ▸ hname

theorem cleanList_canonical (s : List Char) :
    canonicalParts (isRooted s) (cleanLoop (isRooted s) (splitSep s) []) := by
  have := cleanLoop_canonical (isRooted s) (splitSep s) (splitSep_no_sep s) 0 [] (by simp)
    (fun _ => rfl)
  simpa using this

theorem mem_of_getLast? {l : List Char} {c : Char} (h : l.getLast? = some c) : c ∈ l := by
  obtain ⟨hne, hc⟩ := List.mem_getLast?_eq_getLast (l := l) (x := c) h
  exact hc ▸ List.getLast_mem hne

theorem joinSep_getLast?_ne_sep (p : List Char) (ps : List (List Char))
    (h : ∀ q ∈ p :: ps, q ≠ [] ∧ sepChar ∉ q) :
    (joinSep (p :: ps)).getLast? ≠ some sepChar := by
  induction ps generalizing p with
  | nil =>
    intro hc
    exact (h p (List.mem_cons_self _ _)).2 (mem_of_getLast? hc)
  | cons q qs ih =>
    have hj : joinSep (p :: q :: qs) = p ++ sepChar :: joinSep (q :: qs) := rfl
    rw [hj, List.getLast?_append_cons]
    have hq : joinSep (q :: qs) ≠ [] := joinSep_ne_nil q qs (h q (by simp)).1
    rw [show (sepChar :: joinSep (q :: qs)) = [sepChar] ++ joinSep (q :: qs) from rfl,
      List.getLast?_append_of_ne_nil _ hq]
    exact ih q (fun r hr => h r (List.mem_cons_of_mem p hr))

theorem isRooted_joinSep (p : List Char) (ps : List (List Char))
    (hp : p ≠ []) (hsep : sepChar ∉ p) : isRooted (joinSep (p :: ps)) = false := by
  cases p with
  | nil => exact absurd rfl hp
  | cons c p' =>
    have hc : ¬(c = sepChar) := fun hc => hsep (hc ▸ List.mem_cons_self _ _)
    cases ps with
    | nil => simpa [joinSep, isRooted] using hc
    | cons q qs => simpa [joinSep, isRooted] using hc

theorem canonical_good {rooted : Bool} {parts : List (List Char)}
    (h : canonicalParts rooted parts) : ∀ p ∈ parts, p ≠ [] ∧ sepChar ∉ p := by
  obtain ⟨k, names, hparts, hnames, -⟩ := h
  subst hparts
  intro p hp
  rcases List.mem_append.mp hp with h1 | h2
  · have := List.eq_of_mem_replicate h1
    subst this
    exact ⟨by simp, by simp [sepChar]⟩
  · obtain ⟨a, b, -, -⟩ := hnames p h2
    exact ⟨a, b⟩

theorem isRooted_renderClean (rooted : Bool) (parts : List (List Char))
    (h : ∀ p ∈ parts, p ≠ [] ∧ sepChar ∉ p) :
    isRooted (renderClean rooted parts) = rooted := by
  cases rooted with
  | true => simp [renderClean, isRooted]
  | false =>
    cases parts with
    | nil => simp [renderClean, isRooted, sepChar]
    | cons p ps =>
      have hp := h p (List.mem_cons_self _ _)
      simp only [renderClean, Bool.false_eq_true, if_false]
      rw [if_neg (by simp)]
      exact isRooted_joinSep p ps hp.1 hp.2

theorem renderClean_ne_nil (rooted : Bool) (parts : List (List Char))
    (h : ∀ p ∈ parts, p ≠ [] ∧ sepChar ∉ p) : renderClean rooted parts ≠ [] := by
  cases rooted with
  | true => simp [renderClean]
  | false =>
    cases parts with
    | nil => simp [renderClean]
    | cons p ps =>
      simp only [renderClean, Bool.false_eq_true, if_false]
      rw [if_neg (by simp)]
      exact joinSep_ne_nil p ps (h p (List.mem_cons_self _ _)).1

theorem getLast?_renderClean (rooted : Bool) (parts : List (List Char))
    (h : ∀ p ∈ parts, p ≠ [] ∧ sepChar ∉ p) :
    ((renderClean rooted parts).getLast? = some sepChar ↔ (rooted = true ∧ parts = [])) := by
  cases rooted with
  | true =>
    cases parts with
    | nil => simp [renderClean, joinSep]
    | cons p ps =>
      simp only [renderClean, if_true]
      constructor
      · intro hc
        have hne : joinSep (p :: ps) ≠ [] := joinSep_ne_nil p ps (h p (by simp)).1
        rw [show (sepChar :: joinSep (p :: ps)) = [sepChar] ++ joinSep (p :: ps) from rfl,
          List.getLast?_append_of_ne_nil _ hne] at hc
        exact absurd hc (joinSep_getLast?_ne_sep p ps h)
      · rintro ⟨-, hc⟩
        exact absurd hc (by simp)
  | false =>
    cases parts with
    | nil => simp [renderClean, joinSep, sepChar]
    | cons p ps =>
      simp only [renderClean, Bool.false_eq_true, if_false]
      rw [if_neg (by simp)]
      constructor
      · intro hc
        exact absurd hc (joinSep_getLast?_ne_sep p ps h)
      · rintro ⟨hc, -⟩
        exact absurd hc (by simp)

theorem cleanLoop_canonical_fix (rooted : Bool) (parts : List (List Char))
    (h : canonicalParts rooted parts) : cleanLoop rooted parts [] = parts := by
  obtain ⟨k, names, hparts, hnames, hk⟩ := h
  subst hparts
  cases rooted with
  | true =>
    rw [hk rfl]
    simpa using cleanLoop_names true names hnames []
  | false =>
    have h0 : (([] : List (List Char))) = List.replicate 0 ['.', '.'] := rfl
    rw [h0, cleanLoop_dots k names 0, cleanLoop_names false names hnames]
    simp

theorem cleanLoop_append_empty (rooted : Bool) (l : List (List Char)) :
    ∀ acc, cleanLoop rooted (l ++ [[]]) acc = cleanLoop rooted l acc := by
  induction l with
  | nil =>
    intro acc
    simp [cleanLoop]
  | cons p l' ih =>
    intro acc
    by_cases h1 : p = [] ∨ p = ['.']
    · simp only [List.cons_append, cleanLoop, if_pos h1]
      exact ih acc
    · by_cases h2 : p = ['.', '.']
      · simp only [List.cons_append, cleanLoop, if_neg h1, if_pos h2]
        cases acc with
        | nil =>
          cases rooted with
          | true => simpa using ih []
          | false => simpa using ih [['.', '.']]
        | cons q acc' =>
          by_cases hq : q = ['.', '.']
          · simp only [if_pos hq]
            exact ih _
          · simp only [if_neg hq]
            exact ih acc'
      · simp only [List.cons_append, cleanLoop, if_neg h1, if_neg h2]
        exact ih _

theorem cleanLoop_splitSep_render (rooted : Bool) (parts : List (List Char))
    (h : canonicalParts rooted parts) :
    cleanLoop rooted (splitSep (renderClean rooted parts)) [] = parts := by
  have hgood := canonical_good h
  cases rooted with
  | true =>
    cases parts with
    | nil => simp [renderClean, joinSep, splitSep, sepChar, cleanLoop]
    | cons p ps =>
      have hrender : renderClean true (p :: ps) = sepChar :: joinSep (p :: ps) := rfl
      rw [hrender]
      have hsplit : splitSep (sepChar :: joinSep (p :: ps)) =
          [] :: splitSep (joinSep (p :: ps)) := by simp [splitSep]
      rw [hsplit, splitSep_joinSep (p :: ps) (by simp) (fun q hq => (hgood q hq).2)]
      have hdrop : cleanLoop true ([] :: p :: ps) [] = cleanLoop true (p :: ps) [] := by
        simp [cleanLoop]
      rw [hdrop]
      exact cleanLoop_canonical_fix true (p :: ps) h
  | false =>
    cases parts with
    | nil => simp [renderClean, splitSep, sepChar, cleanLoop]
    | cons p ps =>
      have hrender : renderClean false (p :: ps) = joinSep (p :: ps) := by
        simp [renderClean]
      rw [hrender, splitSep_joinSep (p :: ps) (by simp) (fun q hq => (hgood q hq).2)]
      exact cleanLoop_canonical_fix false (p :: ps) h

theorem cleanList_renderClean (rooted : Bool) (parts : List (List Char))
    (h : canonicalParts rooted parts) :
    cleanList (renderClean rooted parts) = renderClean rooted parts := by
  have hgood := canonical_good h
  unfold cleanList
  rw [isRooted_renderClean rooted parts hgood, cleanLoop_splitSep_render rooted parts h]

theorem cleanList_renderClean_sep (rooted : Bool) (parts : List (List Char))
    (h : canonicalParts rooted parts) :
    cleanList (renderClean rooted parts ++ [sepChar]) = renderClean rooted parts := by
  have hgood := canonical_good h
  have hne := renderClean_ne_nil rooted parts hgood
  have hroot : isRooted (renderClean rooted parts ++ [sepChar]) = rooted := by
    cases hr : renderClean rooted parts with
    | nil => exact absurd hr hne
    | cons c cs =>
      have : isRooted (c :: cs) = rooted := hr ▸ isRooted_renderClean rooted parts hgood
      simpa [isRooted] using this
  unfold cleanList
  rw [hroot, splitSep_concat_sep, cleanLoop_append_empty,
    cleanLoop_splitSep_render rooted parts h]

/-- `cleanList` reaches a canonical rendering. -/
theorem cleanList_eq_render (s : List Char) :
    ∃ rooted parts, canonicalParts rooted parts ∧
      cleanList s = renderClean rooted parts := by
  exact ⟨isRooted s, cleanLoop (isRooted s) (splitSep s) [], cleanList_canonical s, rfl⟩

/-- Idempotence of the path cleaner. -/
theorem cleanList_idem (s : List Char) : cleanList (cleanList s) = cleanList s := by
  obtain ⟨rooted, parts, hcanon, heq⟩ := cleanList_eq_render s
  rw [heq, cleanList_renderClean rooted parts hcanon]

/-- Cleaning after appending a trailing separator to a cleaned path gives the
cleaned path back. -/
theorem cleanList_concat_sep (s : List Char) :
    cleanList (cleanList s ++ [sepChar]) = cleanList s := by
  obtain ⟨rooted, parts, hcanon, heq⟩ := cleanList_eq_render s
  rw [heq, cleanList_renderClean_sep rooted parts hcanon]

/-- A cleaned path is never empty. -/
theorem cleanList_ne_nil (s : List Char) : cleanList s ≠ [] := by
  obtain ⟨rooted, parts, hcanon, heq⟩ := cleanList_eq_render s
  rw [heq]
  exact renderClean_ne_nil rooted parts (canonical_good hcanon)

/-- A cleaned path ends in the separator exactly when it is the root path. -/
theorem cleanList_getLast?_sep (s : List Char) :
    (cleanList s).getLast? = some sepChar ↔ cleanList s = [sepChar] := by
  obtain ⟨rooted, parts, hcanon, heq⟩ := cleanList_eq_render s
  rw [heq, getLast?_renderClean rooted parts (canonical_good hcanon)]
  constructor
  · rintro ⟨hr, hp⟩
    subst hr hp
    rfl
  · intro hr
    cases rooted with
    | true =>
      refine ⟨rfl, ?_⟩
      cases parts with
      | nil => rfl
      | cons p ps =>
        have : sepChar :: joinSep (p :: ps) = [sepChar] := hr
        have hj : joinSep (p :: ps) = [] := by
          simpa using congrArg List.tail this
        exact absurd hj (joinSep_ne_nil p ps (canonical_good hcanon p (by simp)).1)
    | false =>
      exfalso
      cases parts with
      | nil => simp [renderClean, sepChar] at hr
      | cons p ps =>
        have hgood := canonical_good hcanon
        have : renderClean false (p :: ps) = joinSep (p :: ps) := by simp [renderClean]
        rw [this] at hr
        have := joinSep_getLast?_ne_sep p ps hgood
        rw [hr] at this
        simp at this

theorem NormalizePath_data (p : String) (d : Bool) :
    (NormalizePath p d).data =
      if d ∧ (cleanList p.data).getLast? ≠ some sepChar then cleanList p.data ++ [sepChar]
      else cleanList p.data := by
  simp only [NormalizePath]
  by_cases h : d ∧ (cleanList p.data).getLast? ≠ some sepChar
  · rw [if_pos h, if_pos h]
  · rw [if_neg h, if_neg h]

/-! ## Claim C9: normalization idempotence -/

/-- C9: `NormalizePath` is idempotent: normalizing an already-normalized path
with the same directory flag returns it unchanged, for every path and flag. -/
theorem normalizePath_idempotent (p : String) (d : Bool) :
    NormalizePath (NormalizePath p d) d = NormalizePath p d := by
  apply String.ext
  cases d with
  | false =>
    have hfalse : ¬((false : Bool) = true ∧
        (cleanList p.data).getLast? ≠ some sepChar) := by simp
    have hA : (NormalizePath p false).data = cleanList p.data := by
      rw [NormalizePath_data]
      exact if_neg (by simp)
    rw [NormalizePath_data, hA, cleanList_idem]
    exact if_neg (by simp)
  | true =>
    by_cases hc : (cleanList p.data).getLast? = some sepChar
    · have hA : (NormalizePath p true).data = cleanList p.data := by
        rw [NormalizePath_data]
        exact if_neg (by simp [hc])
      rw [NormalizePath_data, hA, cleanList_idem]
      rw [if_neg (by simp [hc])]
    · have hA : (NormalizePath p true).data = cleanList p.data ++ [sepChar] := by
        rw [NormalizePath_data]
        exact if_pos (by simp [hc])
      rw [NormalizePath_data, hA, cleanList_concat_sep]
      rw [if_pos (by simp [hc])]

/-! ## Claim C8: trailing-separator behaviour of `NormalizePath` -/

/-- C8 counterexample: at path `/` with `isDir = false`, the normalized path
ends in the separator although the flag is false, so "the result ends in a
path separator iff `isDir` is true" fails as stated. -/
theorem normalizePath_trailing_sep_cex :
    (NormalizePath "/" false).data.getLast? = some sepChar ∧ (false : Bool) ≠ true := by
  constructor
  · decide
  · decide

/-- C8 (amended): `NormalizePath p d` is the cleaned path, with a separator
appended when `d` holds and none is present; it ends in a separator iff `d`
is true or the cleaned path is the root path `/`. -/
theorem normalizePath_trailing_sep (p : String) (d : Bool) :
    NormalizePath p false = String.mk (cleanList p.data) ∧
      ((NormalizePath p d).data.getLast? = some sepChar ↔
        (d = true ∨ cleanList p.data = [sepChar])) := by
  constructor
  · apply String.ext
    rw [NormalizePath_data]
    exact if_neg (by simp)
  · rw [NormalizePath_data]
    cases d with
    | false =>
      rw [if_neg (by simp)]
      simpa using cleanList_getLast?_sep p.data
    | true =>
      by_cases hc : (cleanList p.data).getLast? = some sepChar
      · rw [if_neg (by simp [hc])]
        simp [hc]
      · rw [if_pos (by simp [hc])]
        simp [List.getLast?_concat]

/-! ## Claims C2 and C10: exclusion matching and its safety -/

theorem data_ne_nil_of_ne_empty {e : String} (h : e ≠ "") : e.data ≠ [] := by
  intro hc
  exact h (String.ext (by simpa using hc))

/-- C2: with non-empty exclusion entries, `isExcluded` returns true exactly
when the path equals an entry, or an entry ends in the separator and is a
prefix of the path's parent directory with a trailing separator; in
particular the bare-file entry `/tmp/some_file` excludes neither
`/tmp/some_file/` nor `/tmp/some_file2`, while `/tmp/` excludes `/tmp/foo`. -/
theorem isExcluded_spec :
    (∀ (path : String) (xs : List String), (∀ e ∈ xs, e ≠ "") →
      (isExcluded path xs = some true ↔
        ∃ e ∈ xs, path = e ∨
          (e.data.getLast? = some sepChar ∧
            e.data.isPrefixOf ((Dir path).data ++ [sepChar]) = true))) ∧
    isExcluded "/tmp/some_file/" ["/tmp/some_file"] = some false ∧
    isExcluded "/tmp/some_file2" ["/tmp/some_file"] = some false ∧
    isExcluded "/tmp/foo" ["/tmp/"] = some true := by
  refine ⟨?_, by decide, by decide, by decide⟩
  intro path xs
  induction xs with
  | nil =>
    intro _
    simp [isExcluded]
  | cons e rest ih =>
    intro hne
    have he : e ≠ "" := hne e (List.mem_cons_self _ _)
    have hrest : ∀ x ∈ rest, x ≠ "" := fun x hx => hne x (List.mem_cons_of_mem e hx)
    obtain ⟨c, hc⟩ : ∃ c, e.data.getLast? = some c := by
      cases hcase : e.data.getLast? with
      | none =>
        exact absurd (List.getLast?_eq_none_iff.mp hcase) (data_ne_nil_of_ne_empty he)
      | some c => exact ⟨c, rfl⟩
    by_cases hpe : path = e
    · simp only [isExcluded, if_pos hpe]
      constructor
      · intro _
        exact ⟨e, List.mem_cons_self _ _, Or.inl hpe⟩
      · intro _
        trivial
    · simp only [isExcluded, if_neg hpe, hc]
      by_cases hmatch : c = sepChar ∧ e.data.isPrefixOf ((Dir path).data ++ [sepChar])
      · rw [if_pos hmatch]
        constructor
        · intro _
          exact ⟨e, List.mem_cons_self _ _, Or.inr ⟨by rw [hc, hmatch.1], by simp [hmatch.2]⟩⟩
        · intro _
          trivial
      · rw [if_neg hmatch, ih hrest]
        constructor
        · rintro ⟨x, hx, hd⟩
          exact ⟨x, List.mem_cons_of_mem e hx, hd⟩
        · rintro ⟨x, hx, hd⟩
          rcases List.mem_cons.mp hx with hx1 | hx2
          · subst hx1
            rcases hd with hd | ⟨hd1, hd2⟩
            · exact absurd hd hpe
            · rw [hc] at hd1
              have hcs : c = sepChar := by injection hd1
              exact absurd ⟨hcs, by simpa using hd2⟩ hmatch
          · exact ⟨x, hx2, hd⟩

/-- C10: `isExcluded` performs no out-of-bounds access whenever every
exclusion entry is non-empty, and the precondition is necessary: with the
empty entry and a non-matching path the last-character access is out of
bounds (a panic, modelled as `none`). -/
theorem isExcluded_safety :
    (∀ (path : String) (xs : List String), (∀ e ∈ xs, e ≠ "") →
      (isExcluded path xs).isSome = true) ∧
    ("" ∈ [""] ∧ ("/x" : String) ≠ "" ∧ isExcluded "/x" [""] = none) := by
  refine ⟨?_, by decide, by decide, by decide⟩
  intro path xs
  induction xs with
  | nil =>
    intro _
    simp [isExcluded]
  | cons e rest ih =>
    intro hne
    have he : e ≠ "" := hne e (List.mem_cons_self _ _)
    have hrest : ∀ x ∈ rest, x ≠ "" := fun x hx => hne x (List.mem_cons_of_mem e hx)
    obtain ⟨c, hc⟩ : ∃ c, e.data.getLast? = some c := by
      cases hcase : e.data.getLast? with
      | none =>
        exact absurd (List.getLast?_eq_none_iff.mp hcase) (data_ne_nil_of_ne_empty he)
      | some c => exact ⟨c, rfl⟩
    by_cases hpe : path = e
    · simp [isExcluded, if_pos hpe]
    · simp only [isExcluded, if_neg hpe, hc]
      by_cases hmatch : c = sepChar ∧ e.data.isPrefixOf ((Dir path).data ++ [sepChar])
      · rw [if_pos hmatch]
        rfl
      · rw [if_neg hmatch]
        exact ih hrest

/-! ## Claim C5: fingerprint diff suppression rules -/

/-- C5: `diffFile` (through `fingerprintDiffs`) emits fingerprint diff lines
only when the before file had a fingerprint: none at all otherwise; exactly
one disappearance line when the after fingerprint is gone; and one line per
changed field (two when both method and value changed). -/
theorem fingerprint_diff_rules :
    (∀ fa : List Fingerprint, fingerprintDiffs [] fa = []) ∧
    (∀ (b : Fingerprint) (rb : List Fingerprint),
      fingerprintDiffs (b :: rb) [] = ["fingerprint: " ++ b.value ++ " => "]) ∧
    (∀ (b a : Fingerprint) (rb ra : List Fingerprint),
      b.method ≠ a.method → b.value ≠ a.value →
      (fingerprintDiffs (b :: rb) (a :: ra)).length = 2) := by
  refine ⟨fun fa => rfl, fun b rb => rfl, ?_⟩
  intro b a rb ra hm hv
  simp [fingerprintDiffs, hm, hv]

theorem fingerprint_diff_rules_witness :
    FpMethod.SHA256 ≠ FpMethod.UNKNOWN ∧ ("H1" : String) ≠ "H2" ∧
      (fingerprintDiffs [⟨FpMethod.SHA256, "H1"⟩] [⟨FpMethod.UNKNOWN, "H2"⟩]).length = 2 :=
  ⟨by decide, by decide,
    fingerprint_diff_rules.2.2 ⟨FpMethod.SHA256, "H1"⟩ ⟨FpMethod.UNKNOWN, "H2"⟩ [] []
      (by decide) (by decide)⟩

/-! ## Claim C6: the ctime suppression rule -/

theorem append_ne_of_head_ne {u v : String} {cu cv : Char} {tu tv : List Char}
    (hu : u.data = cu :: tu) (hv : v.data = cv :: tv) (h : cu ≠ cv) (s t : String) :
    (u ++ s) ≠ (v ++ t) := by
  intro hc
  have hdata : u.data ++ s.data = v.data ++ t.data := congrArg String.data hc
  rw [hu, hv] at hdata
  exact h (by injection hdata)

theorem render_ne_empty (s t : String) : s ++ " => " ++ t ≠ "" := by
  intro hc
  have hdata : (s.data ++ " => ".data) ++ t.data = [] := congrArg String.data hc
  rcases List.append_eq_nil.mp hdata with ⟨h1, -⟩
  rcases List.append_eq_nil.mp h1 with ⟨-, h2⟩
  simp at h2

theorem timestampDiff_ne_empty_iff (bt ta : Option Int) :
    timestampDiff bt ta ≠ "" ↔ asTime bt ≠ asTime ta := by
  match bt, ta with
  | none, none => simp [timestampDiff]
  | none, some y =>
    by_cases h : asTime (none : Option Int) = asTime (some y)
    · simp [timestampDiff, h]
    · simpa [timestampDiff, h] using render_ne_empty (toString (asTime (none : Option Int))) (toString (asTime (some y)))
  | some x, none =>
    by_cases h : asTime (some x) = asTime (none : Option Int)
    · simp [timestampDiff, h]
    · simpa [timestampDiff, h] using render_ne_empty (toString (asTime (some x))) (toString (asTime (none : Option Int)))
  | some x, some y =>
    by_cases h : asTime (some x) = asTime (some y)
    · simp [timestampDiff, h]
    · simpa [timestampDiff, h] using render_ne_empty (toString (asTime (some x))) (toString (asTime (some y)))

theorem ctime_line_notin_base (b a : FileStat) (x : String) :
    ("ctime: " ++ x) ∉
      ((if b.uid ≠ a.uid then ["uid: " ++ toString b.uid ++ " => " ++ toString a.uid] else []) ++
        (if b.gid ≠ a.gid then ["gid: " ++ toString b.gid ++ " => " ++ toString a.gid] else [])) := by
  intro hmem
  rcases List.mem_append.mp hmem with h1 | h2
  · have : ("ctime: " ++ x) = "uid: " ++ toString b.uid ++ " => " ++ toString a.uid := by
      by_cases hcond : b.uid ≠ a.uid
      · rw [if_pos hcond] at h1
        simpa using h1
      · rw [if_neg hcond] at h1
        simp at h1
    rw [show ("uid: " ++ toString b.uid ++ " => " ++ toString a.uid) =
      "uid: " ++ (toString b.uid ++ " => " ++ toString a.uid) by simp [String.append_assoc]] at this
    exact append_ne_of_head_ne rfl rfl (by decide) x _ this
  · have : ("ctime: " ++ x) = "gid: " ++ toString b.gid ++ " => " ++ toString a.gid := by
      by_cases hcond : b.gid ≠ a.gid
      · rw [if_pos hcond] at h2
        simpa using h2
      · rw [if_neg hcond] at h2
        simp at h2
    rw [show ("gid: " ++ toString b.gid ++ " => " ++ toString a.gid) =
      "gid: " ++ (toString b.gid ++ " => " ++ toString a.gid) by simp [String.append_assoc]] at this
    exact append_ne_of_head_ne rfl rfl (by decide) x _ this

/-- C6: in `diffFileStat` the ctime line is present exactly when the ctime
values (as converted times) differ and the rendered ctime delta differs from
the rendered mtime delta; in particular an unchanged mtime with a changed
ctime always yields the ctime line. -/
theorem ctime_diff_rule :
    (∀ (b a : FileStat) (ds : List String),
      diffFileStat (some b) (some a) = some ds →
      (("ctime: " ++ timestampDiff b.ctime a.ctime) ∈ ds ↔
        (asTime b.ctime ≠ asTime a.ctime ∧
          timestampDiff b.ctime a.ctime ≠ timestampDiff b.mtime a.mtime))) ∧
    (∀ (b a : FileStat) (ds : List String),
      diffFileStat (some b) (some a) = some ds →
      timestampDiff b.mtime a.mtime = "" → asTime b.ctime ≠ asTime a.ctime →
      ("ctime: " ++ timestampDiff b.ctime a.ctime) ∈ ds) := by
  have main : ∀ (b a : FileStat) (ds : List String),
      diffFileStat (some b) (some a) = some ds →
      (("ctime: " ++ timestampDiff b.ctime a.ctime) ∈ ds ↔
        (asTime b.ctime ≠ asTime a.ctime ∧
          timestampDiff b.ctime a.ctime ≠ timestampDiff b.mtime a.mtime)) := by
    intro b a ds h
    simp only [diffFileStat, Option.some.injEq] at h
    subst h
    by_cases h1 : timestampDiff b.ctime a.ctime = ""
    · rw [if_pos h1]
      constructor
      · intro hmem
        exact absurd hmem (ctime_line_notin_base b a _)
      · rintro ⟨hne, -⟩
        exact absurd h1 ((timestampDiff_ne_empty_iff b.ctime a.ctime).mpr hne)
    · rw [if_neg h1]
      by_cases h2 : timestampDiff b.mtime a.mtime ≠ timestampDiff b.ctime a.ctime
      · rw [if_pos h2]
        constructor
        · intro _
          exact ⟨(timestampDiff_ne_empty_iff b.ctime a.ctime).mp h1, fun hc => h2 hc.symm⟩
        · intro _
          simp
      · rw [if_neg h2]
        push_neg at h2
        constructor
        · intro hmem
          exact absurd hmem (ctime_line_notin_base b a _)
        · rintro ⟨-, hne⟩
          exact absurd h2.symm hne
  refine ⟨main, ?_⟩
  intro b a ds h hm hc
  refine (main b a ds h).mpr ⟨hc, ?_⟩
  rw [hm]
  exact (timestampDiff_ne_empty_iff b.ctime a.ctime).mpr hc

theorem ctime_diff_rule_witness :
    (∃ ds, diffFileStat (some ⟨0, 0, some 1, some 5⟩) (some ⟨0, 0, some 2, some 5⟩) = some ds ∧
      ("ctime: " ++ timestampDiff (some 1) (some 2)) ∈ ds) := by
  refine ⟨_, rfl, ?_⟩
  exact ctime_diff_rule.2 ⟨0, 0, some 1, some 5⟩ ⟨0, 0, some 2, some 5⟩ _ rfl (by decide)
    (by decide)

/-! ## Claim C3: trust-chain verification in `ReadLastGoodWalk` -/

theorem verifyFingerprint_none {g c : Fingerprint} (h : verifyFingerprint g c = none) :
    c = g := by
  simp only [verifyFingerprint] at h
  split_ifs at h with h1 h2 h3 h4
  push_neg at h1 h4
  cases c with
  | mk cm cv =>
    cases g with
    | mk gm gv =>
      simp only at h1 h4
      rw [h1, h4]

/-- C3: when the review store parses and pins an entry for the hostname and
the referenced walk loads, `ReadLastGoodWalk` returns an error whenever the
fingerprint computed over the raw bytes differs from the pinned fingerprint
or the loaded walk's id differs from the pinned id; and when the parsed store
has no entry for the hostname it returns no walk and no error. -/
theorem readLastGoodWalk_trust :
    (∀ (hash : List Nat → String) (rf : String → Except String (List Nat))
      (um : List Nat → Except String Walk) (rvs : Reviews) (host : String)
      (rvw : Review) (bytes : List Nat) (w : Walk),
      lookupReview rvs.review host = some rvw →
      rf rvw.walkReference = Except.ok bytes →
      um bytes = Except.ok w →
      (fingerprintOf hash bytes ≠ rvw.fingerprint ∨ w.id ≠ rvw.walkID) →
      ∃ e, (ReadLastGoodWalk hash rf um (Except.ok rvs) host).2 = some e) ∧
    (∀ (hash : List Nat → String) (rf : String → Except String (List Nat))
      (um : List Nat → Except String Walk) (rvs : Reviews) (host : String),
      lookupReview rvs.review host = none →
      ReadLastGoodWalk hash rf um (Except.ok rvs) host = (none, none)) := by
  constructor
  · intro hash rf um rvs host rvw bytes w hlook hread hunm hor
    simp only [ReadLastGoodWalk, ReadWalk, hlook, hread, hunm]
    cases hv : verifyFingerprint rvw.fingerprint
        (fingerprintOf hash bytes) with
    | some e => exact ⟨e, rfl⟩
    | none =>
      have heq : fingerprintOf hash bytes = rvw.fingerprint := verifyFingerprint_none hv
      rcases hor with hfp | hid
      · exact absurd heq hfp
      · rw [if_pos hid]
        exact ⟨_, rfl⟩
  · intro hash rf um rvs host hlook
    simp [ReadLastGoodWalk, hlook]

theorem readLastGoodWalk_trust_witness :
    lookupReview (Reviews.mk [("h", ⟨"W1", "ref", ⟨FpMethod.SHA256, "aa"⟩⟩)]).review "h" =
        some ⟨"W1", "ref", ⟨FpMethod.SHA256, "aa"⟩⟩ ∧
      ∃ e, (ReadLastGoodWalk (fun _ => "bb") (fun _ => Except.ok [1])
        (fun _ => Except.ok ⟨"W1", 1, "h", none, none, []⟩)
        (Except.ok (Reviews.mk [("h", ⟨"W1", "ref", ⟨FpMethod.SHA256, "aa"⟩⟩)])) "h").2 = some e := by
  refine ⟨by decide, ?_⟩
  exact readLastGoodWalk_trust.1 (fun _ => "bb") (fun _ => Except.ok [1])
    (fun _ => Except.ok ⟨"W1", 1, "h", none, none, []⟩)
    (Reviews.mk [("h", ⟨"W1", "ref", ⟨FpMethod.SHA256, "aa"⟩⟩)]) "h"
    ⟨"W1", "ref", ⟨FpMethod.SHA256, "aa"⟩⟩ [1] ⟨"W1", 1, "h", none, none, []⟩
    (by decide) rfl rfl (Or.inl (by decide))

/-! ## Claim C4: `Compare` precondition failures -/

theorem sanityCheck_after_none (b : Option Walk) :
    sanityCheck b none =
      some "either hostname, reviewFile and walkPath OR at least afterFile need to be specified" := rfl

theorem compare_error_iff_sanity (cfg : ReportConfig) (b a : Option Walk) :
    (∃ e, Compare cfg b a = some (Except.error e)) ↔ (∃ e, sanityCheck b a = some e) := by
  cases hs : sanityCheck b a with
  | some e =>
    simp only [Compare, hs]
    exact ⟨fun _ => ⟨e, rfl⟩, fun _ => ⟨e, rfl⟩⟩
  | none =>
    simp only [Compare, hs]
    cases a with
    | none => exact absurd hs (by rw [sanityCheck_after_none]; simp)
    | some wa =>
      constructor
      · rintro ⟨e, he⟩
        exfalso
        generalize hwb : (match b with
          | none => ([] : List (String × File))
          | some wb => buildMap wb.file) = wbMap at he
        cases hcb : classifyB cfg.exclude (buildMap wa.file) wbMap with
        | none => simp [hcb] at he
        | some t =>
          obtain ⟨ds, ms, es⟩ := t
          cases hca : classifyA cfg.exclude wbMap (buildMap wa.file) with
          | none => simp [hcb, hca] at he
          | some added => simp [hcb, hca] at he
      · rintro ⟨e, he⟩
        cases he

/-- C4: `Compare` returns an error (and no report) exactly when the after
walk is absent, or the before walk is present and shares the after walk's
id, or differs from it in version or hostname, or stopped after the after
walk started; in particular comparing a walk with itself fails with the
identity-mismatch error. -/
theorem compare_error_conditions :
    (∀ (cfg : ReportConfig) (b a : Option Walk),
      (∃ e, Compare cfg b a = some (Except.error e)) ↔
        (a = none ∨ ∃ wa wb, a = some wa ∧ b = some wb ∧
          (wb.id = wa.id ∨ wb.version ≠ wa.version ∨ wb.hostname ≠ wa.hostname ∨
            asTime wa.startWalk < asTime wb.stopWalk))) ∧
    (∀ (cfg : ReportConfig) (w : Walk),
      Compare cfg (some w) (some w) =
        some (Except.error ("ID of both Walks is the same: " ++ w.id))) := by
  constructor
  · intro cfg b a
    rw [compare_error_iff_sanity]
    cases a with
    | none =>
      rw [sanityCheck_after_none]
      simp
    | some wa =>
      cases b with
      | none => simp [sanityCheck]
      | some wb =>
        simp only [sanityCheck, Option.some.injEq, exists_and_left, exists_eq_left]
        by_cases h1 : wb.id = wa.id
        · rw [if_pos h1]
          simp [h1]
        · rw [if_neg h1]
          by_cases h2 : wb.version ≠ wa.version
          · rw [if_pos h2]
            simp [h1, h2]
          · rw [if_neg h2]
            by_cases h3 : wb.hostname ≠ wa.hostname
            · rw [if_pos h3]
              simp [h1, h2, h3]
            · rw [if_neg h3]
              by_cases h4 : asTime wa.startWalk < asTime wb.stopWalk
              · rw [if_pos h4]
                simp [h1, h2, h3, h4]
              · rw [if_neg h4]
                push_neg at h2 h3
                simp [h1, h2, h3, h4]
  · intro cfg w
    simp [Compare, sanityCheck]

/-! ## Association-map lemmas for `Compare`'s path indexing -/

/-- The keys of an association list. -/
def keysOf (m : List (String × File)) : List String := m.map Prod.fst

theorem keysOf_insertKV (m : List (String × File)) (k : String) (v : File) :
    ∀ x, x ∈ keysOf (insertKV m k v) ↔ (x = k ∨ x ∈ keysOf m) := by
  induction m with
  | nil => simp [insertKV, keysOf]
  | cons e rest ih =>
    intro x
    obtain ⟨k', v'⟩ := e
    by_cases h : k' = k
    · subst h
      simp [insertKV, keysOf]
    · simp only [insertKV, if_neg h, keysOf, List.map_cons, List.mem_cons]
      rw [show (List.map Prod.fst (insertKV rest k v) : List String) =
        keysOf (insertKV rest k v) from rfl, ih x]
      tauto

theorem pairwise_insertKV (m : List (String × File)) (k : String) (v : File)
    (h : m.Pairwise (fun x y => x.1 ≠ y.1)) :
    (insertKV m k v).Pairwise (fun x y => x.1 ≠ y.1) := by
  induction m with
  | nil => simp [insertKV]
  | cons e rest ih =>
    obtain ⟨k', v'⟩ := e
    rw [List.pairwise_cons] at h
    by_cases hk : k' = k
    · subst hk
      rw [insertKV, if_pos rfl, List.pairwise_cons]
      exact ⟨h.1, h.2⟩
    · rw [insertKV, if_neg hk, List.pairwise_cons]
      refine ⟨?_, ih h.2⟩
      intro e' he'
      rcases (keysOf_insertKV rest k v e'.1).mp (List.mem_map_of_mem Prod.fst he') with h1 | h2
      · rw [h1]
        exact hk
      · obtain ⟨e'', he'', hfst⟩ := List.mem_map.mp h2
        exact hfst ▸ h.1 e'' he''

theorem mem_insertKV (m : List (String × File)) (k : String) (v : File) :
    ∀ e, e ∈ insertKV m k v → e = (k, v) ∨ e ∈ m := by
  induction m with
  | nil => simp [insertKV]
  | cons e0 rest ih =>
    obtain ⟨k', v'⟩ := e0
    intro e he
    by_cases hk : k' = k
    · subst hk
      rw [insertKV, if_pos rfl] at he
      rcases List.mem_cons.mp he with h1 | h2
      · exact Or.inl h1
      · exact Or.inr (List.mem_cons_of_mem _ h2)
    · rw [insertKV, if_neg hk] at he
      rcases List.mem_cons.mp he with h1 | h2
      · exact Or.inr (h1 ▸ List.mem_cons_self _ _)
      · rcases ih e h2 with h3 | h4
        · exact Or.inl h3
        · exact Or.inr (List.mem_cons_of_mem _ h4)

theorem lookupKV_eq_none (m : List (String × File)) (p : String) :
    lookupKV m p = none ↔ p ∉ keysOf m := by
  induction m with
  | nil => simp [lookupKV, keysOf]
  | cons e rest ih =>
    obtain ⟨k, v⟩ := e
    by_cases hk : k = p
    · subst hk
      simp [lookupKV, keysOf]
    · simp only [lookupKV, if_neg hk, keysOf, List.map_cons, List.mem_cons]
      rw [show (List.map Prod.fst rest : List String) = keysOf rest from rfl]
      rw [ih]
      constructor
      · intro h hc
        rcases hc with h1 | h2
        · exact hk h1.symm
        · exact h h2
      · intro h hc
        exact h (Or.inr hc)

theorem buildMap_foldl_pairwise (files : List File) :
    ∀ acc, acc.Pairwise (fun x y => (x : String × File).1 ≠ y.1) →
      (files.foldl (fun m f =>
        let f' := { f with path := NormalizePath f.path f.info.isDir }
        insertKV m f'.path f') acc).Pairwise (fun x y => x.1 ≠ y.1) := by
  induction files with
  | nil => intro acc h; exact h
  | cons f rest ih =>
    intro acc h
    exact ih _ (pairwise_insertKV _ _ _ h)

theorem buildMap_pairwise (files : List File) :
    (buildMap files).Pairwise (fun x y => x.1 ≠ y.1) :=
  buildMap_foldl_pairwise files [] (by simp)

theorem buildMap_foldl_keys (files : List File) :
    ∀ acc x, x ∈ keysOf (files.foldl (fun m f =>
        let f' := { f with path := NormalizePath f.path f.info.isDir }
        insertKV m f'.path f') acc) ↔
      (x ∈ keysOf acc ∨ ∃ f ∈ files, NormalizePath f.path f.info.isDir = x) := by
  induction files with
  | nil => simp
  | cons f rest ih =>
    intro acc x
    rw [List.foldl_cons, ih]
    rw [keysOf_insertKV]
    constructor
    · rintro (h1 | h2)
      · rcases h1 with h1a | h1b
        · exact Or.inr ⟨f, List.mem_cons_self _ _, h1a.symm⟩
        · exact Or.inl h1b
      · obtain ⟨g, hg, hgx⟩ := h2
        exact Or.inr ⟨g, List.mem_cons_of_mem f hg, hgx⟩
    · rintro (h1 | h2)
      · exact Or.inl (Or.inr h1)
      · obtain ⟨g, hg, hgx⟩ := h2
        rcases List.mem_cons.mp hg with hgf | hgr
        · subst hgf
          exact Or.inl (Or.inl hgx.symm)
        · exact Or.inr ⟨g, hgr, hgx⟩

theorem buildMap_keys (files : List File) (x : String) :
    x ∈ keysOf (buildMap files) ↔ ∃ f ∈ files, NormalizePath f.path f.info.isDir = x := by
  rw [buildMap, buildMap_foldl_keys files [] x]
  simp [keysOf]

theorem buildMap_foldl_path (files : List File) :
    ∀ acc, (∀ e ∈ acc, (e : String × File).2.path = e.1) →
      ∀ e ∈ (files.foldl (fun m f =>
        let f' := { f with path := NormalizePath f.path f.info.isDir }
        insertKV m f'.path f') acc), e.2.path = e.1 := by
  induction files with
  | nil => intro acc h; exact h
  | cons f rest ih =>
    intro acc h
    refine ih _ ?_
    intro e he
    rcases mem_insertKV _ _ _ e he with h1 | h2
    · rw [h1]
    · exact h e h2

theorem buildMap_path (files : List File) :
    ∀ e ∈ buildMap files, e.2.path = e.1 :=
  buildMap_foldl_path files [] (by simp)

/-! ## Inversion of the classification loops -/

theorem classifyB_cons_elim (ex : List String) (wa : List (String × File)) (k : String)
    (fb : File) (rest : List (String × File))
    (out : List ActionData × List ActionData × List ActionData)
    (h : classifyB ex wa ((k, fb) :: rest) = some out) :
    ∃ exq ds' ms' es', isExcluded k ex = some exq ∧
      classifyB ex wa rest = some (ds', ms', es') ∧
      ((exq = true ∧ out = (ds', ms', es')) ∨
        (exq = false ∧ lookupKV wa k = none ∧
          out = (⟨some fb, none, "", none⟩ :: ds', ms', es')) ∨
        (exq = false ∧ ∃ fa d, lookupKV wa k = some fa ∧
          diffFile fb fa = some (Except.error d) ∧
          out = (ds', ms', ⟨some fb, some fa, "", some d⟩ :: es')) ∨
        (exq = false ∧ ∃ fa d, lookupKV wa k = some fa ∧
          diffFile fb fa = some (Except.ok d) ∧ d ≠ "" ∧
          out = (ds', ⟨some fb, some fa, d, none⟩ :: ms', es')) ∨
        (exq = false ∧ ∃ fa, lookupKV wa k = some fa ∧
          diffFile fb fa = some (Except.ok "") ∧ out = (ds', ms', es'))) := by
  cases hex : isExcluded k ex with
  | none => simp [classifyB, hex] at h
  | some exq =>
    cases hrest : classifyB ex wa rest with
    | none => simp [classifyB, hex, hrest] at h
    | some t =>
      obtain ⟨ds', ms', es'⟩ := t
      refine ⟨exq, ds', ms', es', rfl, rfl, ?_⟩
      simp only [classifyB, hex, hrest] at h
      cases exq with
      | true =>
        simp only [if_true] at h
        exact Or.inl ⟨rfl, by simpa using h.symm⟩
      | false =>
        simp only [Bool.false_eq_true, if_false] at h
        cases hlook : lookupKV wa k with
        | none =>
          simp only [hlook] at h
          exact Or.inr (Or.inl ⟨rfl, rfl, by simpa using h.symm⟩)
        | some fa =>
          simp only [hlook] at h
          cases hdiff : diffFile fb fa with
          | none =>
            simp only [hdiff] at h
            exact Option.noConfusion h
          | some r =>
            cases r with
            | error d =>
              simp only [hdiff] at h
              exact Or.inr (Or.inr (Or.inl ⟨rfl, fa, d, rfl, hdiff, by simpa using h.symm⟩))
            | ok d =>
              by_cases hd : d = ""
              · subst hd
                simp only [hdiff, ne_eq, not_true_eq_false, if_false] at h
                exact Or.inr (Or.inr (Or.inr (Or.inr ⟨rfl, fa, rfl, hdiff, by simpa using h.symm⟩)))
              · simp only [hdiff, ne_eq, hd, not_false_eq_true, if_true] at h
                exact Or.inr (Or.inr (Or.inr (Or.inl ⟨rfl, fa, d, rfl, hdiff, hd, by simpa using h.symm⟩)))

theorem classifyA_cons_elim (ex : List String) (wb : List (String × File)) (k : String)
    (fa : File) (rest : List (String × File)) (out : List ActionData)
    (h : classifyA ex wb ((k, fa) :: rest) = some out) :
    ∃ exq rest', isExcluded k ex = some exq ∧ classifyA ex wb rest = some rest' ∧
      ((exq = true ∧ out = rest') ∨
        (exq = false ∧ (∃ v, lookupKV wb k = some v) ∧ out = rest') ∨
        (exq = false ∧ lookupKV wb k = none ∧ out = ⟨none, some fa, "", none⟩ :: rest')) := by
  cases hex : isExcluded k ex with
  | none => simp [classifyA, hex] at h
  | some exq =>
    cases hrest : classifyA ex wb rest with
    | none => simp [classifyA, hex, hrest] at h
    | some rest' =>
      refine ⟨exq, rest', rfl, rfl, ?_⟩
      simp only [classifyA, hex, hrest] at h
      cases exq with
      | true =>
        simp only [if_true] at h
        exact Or.inl ⟨rfl, by simpa using h.symm⟩
      | false =>
        simp only [Bool.false_eq_true, if_false] at h
        cases hlook : lookupKV wb k with
        | none =>
          simp only [hlook] at h
          exact Or.inr (Or.inr ⟨rfl, rfl, by simpa using h.symm⟩)
        | some v =>
          simp only [hlook] at h
          exact Or.inr (Or.inl ⟨rfl, ⟨v, rfl⟩, by simpa using h.symm⟩)

/-- Whether an entry's before-file path is `p`. -/
def bPathIs (p : String) (ad : ActionData) : Bool := beforePathD ad = p

/-- Whether an entry's after-file path is `p`. -/
def aPathIs (p : String) (ad : ActionData) : Bool := afterPathD ad = p

theorem bPathIs_mk (p : String) (fb : File) (aft : Option File) (df : String)
    (er : Option String) :
    bPathIs p ⟨some fb, aft, df, er⟩ = decide (fb.path = p) := rfl

theorem aPathIs_mk (p : String) (bef : Option File) (fa : File) (df : String)
    (er : Option String) :
    aPathIs p ⟨bef, some fa, df, er⟩ = decide (fa.path = p) := rfl

theorem classifyB_countP_zero (ex : List String) (wa : List (String × File)) (p : String) :
    ∀ (m : List (String × File)) (ds ms es : List ActionData),
      (∀ e ∈ m, e.2.path = e.1) → (∀ e ∈ m, e.1 ≠ p) →
      classifyB ex wa m = some (ds, ms, es) →
      ds.countP (bPathIs p) = 0 ∧ ms.countP (bPathIs p) = 0 ∧ es.countP (bPathIs p) = 0 := by
  intro m
  induction m with
  | nil =>
    intro ds ms es _ _ h
    simp only [classifyB, Option.some.injEq, Prod.mk.injEq] at h
    obtain ⟨h1, h2, h3⟩ := h
    subst h1 h2 h3
    simp
  | cons e rest ih =>
    obtain ⟨k, fb⟩ := e
    intro ds ms es hpath hne h
    obtain ⟨exq, ds', ms', es', hex, hrest, hcases⟩ := classifyB_cons_elim _ _ _ _ _ _ h
    have hpath' : ∀ e ∈ rest, e.2.path = e.1 := fun e he => hpath e (List.mem_cons_of_mem _ he)
    have hne' : ∀ e ∈ rest, e.1 ≠ p := fun e he => hne e (List.mem_cons_of_mem _ he)
    have hrec := ih ds' ms' es' hpath' hne' hrest
    have hfb : fb.path ≠ p := by
      have h1 : fb.path = k := hpath (k, fb) (List.mem_cons_self _ _)
      have h2 : k ≠ p := hne (k, fb) (List.mem_cons_self _ _)
      rw [h1]
      exact h2
    have hbp : decide (fb.path = p) = false := by simp [hfb]
    rcases hcases with ⟨-, hout⟩ | ⟨-, -, hout⟩ | ⟨-, fa, d, -, -, hout⟩ |
        ⟨-, fa, d, -, -, -, hout⟩ | ⟨-, fa, -, -, hout⟩ <;>
      (simp only [Prod.mk.injEq] at hout; obtain ⟨h1, h2, h3⟩ := hout; subst h1 h2 h3) <;>
      simp_all [List.countP_cons, bPathIs_mk]

theorem classifyB_countP_excluded (ex : List String) (wa : List (String × File)) (p : String)
    (hp : isExcluded p ex = some true) :
    ∀ (m : List (String × File)) (ds ms es : List ActionData),
      (∀ e ∈ m, e.2.path = e.1) →
      classifyB ex wa m = some (ds, ms, es) →
      ds.countP (bPathIs p) = 0 ∧ ms.countP (bPathIs p) = 0 ∧ es.countP (bPathIs p) = 0 := by
  intro m
  induction m with
  | nil =>
    intro ds ms es _ h
    simp only [classifyB, Option.some.injEq, Prod.mk.injEq] at h
    obtain ⟨h1, h2, h3⟩ := h
    subst h1 h2 h3
    simp
  | cons e rest ih =>
    obtain ⟨k, fb⟩ := e
    intro ds ms es hpath h
    obtain ⟨exq, ds', ms', es', hex, hrest, hcases⟩ := classifyB_cons_elim _ _ _ _ _ _ h
    have hpath' : ∀ e ∈ rest, e.2.path = e.1 := fun e he => hpath e (List.mem_cons_of_mem _ he)
    have hrec := ih ds' ms' es' hpath' hrest
    by_cases hk : k = p
    · subst hk
      have hexq : exq = true := by
        rw [hp] at hex
        exact (Option.some.injEq _ _ ▸ hex : true = exq).symm
      rcases hcases with ⟨-, hout⟩ | ⟨hfalse, -, -⟩ | ⟨hfalse, -⟩ | ⟨hfalse, -⟩ | ⟨hfalse, -⟩
      · simp only [Prod.mk.injEq] at hout
        obtain ⟨h1, h2, h3⟩ := hout
        subst h1 h2 h3
        exact hrec
      all_goals (rw [hexq] at hfalse; cases hfalse)
    · have hfb : fb.path ≠ p := by
        have h1 : fb.path = k := hpath (k, fb) (List.mem_cons_self _ _)
        rw [h1]
        exact hk
      have hbp : decide (fb.path = p) = false := by simp [hfb]
      rcases hcases with ⟨-, hout⟩ | ⟨-, -, hout⟩ | ⟨-, fa, d, -, -, hout⟩ |
          ⟨-, fa, d, -, -, -, hout⟩ | ⟨-, fa, -, -, hout⟩ <;>
        (simp only [Prod.mk.injEq] at hout; obtain ⟨h1, h2, h3⟩ := hout; subst h1 h2 h3) <;>
        simp_all [List.countP_cons, bPathIs_mk]

theorem classifyB_countP_deleted (ex : List String) (wa : List (String × File)) (p : String)
    (hexp : isExcluded p ex = some false) (hlookp : lookupKV wa p = none) :
    ∀ (m : List (String × File)) (ds ms es : List ActionData),
      m.Pairwise (fun x y => x.1 ≠ y.1) → (∀ e ∈ m, e.2.path = e.1) → p ∈ keysOf m →
      classifyB ex wa m = some (ds, ms, es) →
      ds.countP (bPathIs p) = 1 := by
  intro m
  induction m with
  | nil =>
    intro ds ms es _ _ hmem _
    simp [keysOf] at hmem
  | cons e rest ih =>
    obtain ⟨k, fb⟩ := e
    intro ds ms es hpw hpath hmem h
    obtain ⟨exq, ds', ms', es', hex, hrest, hcases⟩ := classifyB_cons_elim _ _ _ _ _ _ h
    have hpath' : ∀ e ∈ rest, e.2.path = e.1 := fun e he => hpath e (List.mem_cons_of_mem _ he)
    have hpw' : rest.Pairwise (fun x y => x.1 ≠ y.1) := (List.pairwise_cons.mp hpw).2
    by_cases hk : k = p
    · subst hk
      have hexq : exq = false := by
        rw [hexp] at hex
        exact (Option.some.injEq _ _ ▸ hex : false = exq).symm
      have hne' : ∀ e ∈ rest, e.1 ≠ k := by
        intro e he
        exact fun hc => (List.pairwise_cons.mp hpw).1 e he hc.symm
      rcases hcases with ⟨htrue, -⟩ | ⟨-, -, hout⟩ | ⟨-, fa, d, hlk, -, -⟩ |
          ⟨-, fa, d, hlk, -, -, -⟩ | ⟨-, fa, hlk, -, -⟩
      · rw [hexq] at htrue
        cases htrue
      · simp only [Prod.mk.injEq] at hout
        obtain ⟨h1, h2, h3⟩ := hout
        subst h1 h2 h3
        have hzero := (classifyB_countP_zero ex wa k rest _ _ _ hpath' hne' hrest).1
        have hfb : fb.path = k := hpath (k, fb) (List.mem_cons_self _ _)
        simp [List.countP_cons, bPathIs_mk, hfb, hzero]
      all_goals (rw [hlookp] at hlk; cases hlk)
    · have hmem' : p ∈ keysOf rest := by
        simp only [keysOf, List.map_cons, List.mem_cons] at hmem
        rcases hmem with h1 | h2
        · exact absurd h1.symm hk
        · exact h2
      have hrec := ih ds' ms' es' hpw' hpath' hmem' hrest
      have hfb : fb.path ≠ p := by
        have h1 : fb.path = k := hpath (k, fb) (List.mem_cons_self _ _)
        rw [h1]
        exact hk
      have hbp : decide (fb.path = p) = false := by simp [hfb]
      rcases hcases with ⟨-, hout⟩ | ⟨-, -, hout⟩ | ⟨-, fa, d, -, -, hout⟩ |
          ⟨-, fa, d, -, -, -, hout⟩ | ⟨-, fa, -, -, hout⟩ <;>
        (simp only [Prod.mk.injEq] at hout; obtain ⟨h1, h2, h3⟩ := hout; subst h1 h2 h3) <;>
        simp_all [List.countP_cons, bPathIs_mk]

theorem classifyA_countP_zero (ex : List String) (wb : List (String × File)) (p : String) :
    ∀ (m : List (String × File)) (out : List ActionData),
      (∀ e ∈ m, e.2.path = e.1) → (∀ e ∈ m, e.1 ≠ p) →
      classifyA ex wb m = some out →
      out.countP (aPathIs p) = 0 := by
  intro m
  induction m with
  | nil =>
    intro out _ _ h
    simp only [classifyA, Option.some.injEq] at h
    subst h
    simp
  | cons e rest ih =>
    obtain ⟨k, fa⟩ := e
    intro out hpath hne h
    obtain ⟨exq, rest', hex, hrest, hcases⟩ := classifyA_cons_elim _ _ _ _ _ _ h
    have hpath' : ∀ e ∈ rest, e.2.path = e.1 := fun e he => hpath e (List.mem_cons_of_mem _ he)
    have hne' : ∀ e ∈ rest, e.1 ≠ p := fun e he => hne e (List.mem_cons_of_mem _ he)
    have hrec := ih rest' hpath' hne' hrest
    have hfa : fa.path ≠ p := by
      have h1 : fa.path = k := hpath (k, fa) (List.mem_cons_self _ _)
      rw [h1]
      exact hne (k, fa) (List.mem_cons_self _ _)
    have hbp : decide (fa.path = p) = false := by simp [hfa]
    rcases hcases with ⟨-, hout⟩ | ⟨-, -, hout⟩ | ⟨-, -, hout⟩ <;> subst hout <;>
      simp_all [List.countP_cons, aPathIs_mk]

theorem classifyA_countP_excluded (ex : List String) (wb : List (String × File)) (p : String)
    (hp : isExcluded p ex = some true) :
    ∀ (m : List (String × File)) (out : List ActionData),
      (∀ e ∈ m, e.2.path = e.1) →
      classifyA ex wb m = some out →
      out.countP (aPathIs p) = 0 := by
  intro m
  induction m with
  | nil =>
    intro out _ h
    simp only [classifyA, Option.some.injEq] at h
    subst h
    simp
  | cons e rest ih =>
    obtain ⟨k, fa⟩ := e
    intro out hpath h
    obtain ⟨exq, rest', hex, hrest, hcases⟩ := classifyA_cons_elim _ _ _ _ _ _ h
    have hpath' : ∀ e ∈ rest, e.2.path = e.1 := fun e he => hpath e (List.mem_cons_of_mem _ he)
    have hrec := ih rest' hpath' hrest
    by_cases hk : k = p
    · subst hk
      have hexq : exq = true := by
        rw [hp] at hex
        exact (Option.some.injEq _ _ ▸ hex : true = exq).symm
      rcases hcases with ⟨-, hout⟩ | ⟨hfalse, -, -⟩ | ⟨hfalse, -, -⟩
      · subst hout
        exact hrec
      all_goals (rw [hexq] at hfalse; cases hfalse)
    · have hfa : fa.path ≠ p := by
        have h1 : fa.path = k := hpath (k, fa) (List.mem_cons_self _ _)
        rw [h1]
        exact hk
      have hbp : decide (fa.path = p) = false := by simp [hfa]
      rcases hcases with ⟨-, hout⟩ | ⟨-, -, hout⟩ | ⟨-, -, hout⟩ <;> subst hout <;>
        simp_all [List.countP_cons, aPathIs_mk]

theorem classifyA_countP_added (ex : List String) (wb : List (String × File)) (p : String)
    (hexp : isExcluded p ex = some false) (hlookp : lookupKV wb p = none) :
    ∀ (m : List (String × File)) (out : List ActionData),
      m.Pairwise (fun x y => x.1 ≠ y.1) → (∀ e ∈ m, e.2.path = e.1) → p ∈ keysOf m →
      classifyA ex wb m = some out →
      out.countP (aPathIs p) = 1 := by
  intro m
  induction m with
  | nil =>
    intro out _ _ hmem _
    simp [keysOf] at hmem
  | cons e rest ih =>
    obtain ⟨k, fa⟩ := e
    intro out hpw hpath hmem h
    obtain ⟨exq, rest', hex, hrest, hcases⟩ := classifyA_cons_elim _ _ _ _ _ _ h
    have hpath' : ∀ e ∈ rest, e.2.path = e.1 := fun e he => hpath e (List.mem_cons_of_mem _ he)
    have hpw' : rest.Pairwise (fun x y => x.1 ≠ y.1) := (List.pairwise_cons.mp hpw).2
    by_cases hk : k = p
    · subst hk
      have hexq : exq = false := by
        rw [hexp] at hex
        exact (Option.some.injEq _ _ ▸ hex : false = exq).symm
      have hne' : ∀ e ∈ rest, e.1 ≠ k := by
        intro e he
        exact fun hc => (List.pairwise_cons.mp hpw).1 e he hc.symm
      rcases hcases with ⟨htrue, -⟩ | ⟨-, ⟨v, hlk⟩, -⟩ | ⟨-, -, hout⟩
      · rw [hexq] at htrue
        cases htrue
      · rw [hlookp] at hlk
        cases hlk
      · subst hout
        have hzero := classifyA_countP_zero ex wb k rest _ hpath' hne' hrest
        have hfa : fa.path = k := hpath (k, fa) (List.mem_cons_self _ _)
        simp [List.countP_cons, aPathIs_mk, hfa, hzero]
    · have hmem' : p ∈ keysOf rest := by
        simp only [keysOf, List.map_cons, List.mem_cons] at hmem
        rcases hmem with h1 | h2
        · exact absurd h1.symm hk
        · exact h2
      have hrec := ih rest' hpw' hpath' hmem' hrest
      have hfa : fa.path ≠ p := by
        have h1 : fa.path = k := hpath (k, fa) (List.mem_cons_self _ _)
        rw [h1]
        exact hk
      have hbp : decide (fa.path = p) = false := by simp [hfa]
      rcases hcases with ⟨-, hout⟩ | ⟨-, -, hout⟩ | ⟨-, -, hout⟩ <;> subst hout <;>
        simp_all [List.countP_cons, aPathIs_mk]

theorem countP_sortByKey (key : ActionData → String) (pred : ActionData → Bool)
    (l : List ActionData) : (sortByKey key l).countP pred = l.countP pred :=
  (List.perm_insertionSort _ l).countP_eq pred

theorem sortByKey_sorted (key : ActionData → String) (l : List ActionData) :
    List.Sorted (fun x y => key x ≤ key y) (sortByKey key l) := by
  haveI h1 : IsTotal ActionData (fun x y => key x ≤ key y) :=
    ⟨fun x y => le_total (key x) (key y)⟩
  haveI h2 : IsTrans ActionData (fun x y => key x ≤ key y) :=
    ⟨fun x y z hxy hyz => le_trans hxy hyz⟩
  exact List.sorted_insertionSort _ l

theorem compare_ok_elim (cfg : ReportConfig) (b a : Option Walk) (rep : Report)
    (h : Compare cfg b a = some (Except.ok rep)) :
    ∃ wa ds ms es added, a = some wa ∧
      classifyB cfg.exclude (buildMap wa.file)
        (match b with | none => [] | some wb => buildMap wb.file) = some (ds, ms, es) ∧
      classifyA cfg.exclude
        (match b with | none => [] | some wb => buildMap wb.file)
        (buildMap wa.file) = some added ∧
      rep = { added := sortByKey afterPathD added, deleted := sortByKey beforePathD ds,
              modified := sortByKey beforePathD ms, errors := sortByKey beforePathD es } := by
  cases hs : sanityCheck b a with
  | some e => simp [Compare, hs] at h
  | none =>
    cases a with
    | none => exact absurd hs (by rw [sanityCheck_after_none]; simp)
    | some wa =>
      simp only [Compare, hs] at h
      generalize hwb : (match b with
        | none => ([] : List (String × File))
        | some wb => buildMap wb.file) = wbMap at h
      cases hcb : classifyB cfg.exclude (buildMap wa.file) wbMap with
      | none => simp [hcb] at h
      | some t =>
        obtain ⟨ds, ms, es⟩ := t
        cases hca : classifyA cfg.exclude wbMap (buildMap wa.file) with
        | none => simp [hcb, hca] at h
        | some added =>
          simp only [hcb, hca, Option.some.injEq, Except.ok.injEq] at h
          refine ⟨wa, ds, ms, es, added, rfl, ?_, ?_, h.symm⟩
          · exact hcb
          · exact hca

/-! ## Claim C7: the four report lists are sorted by path -/

/-- C7: every report returned by `Compare` has its Added list sorted by
after-file path and its Deleted, Modified and Errors lists sorted by
before-file path. -/
theorem report_lists_sorted (cfg : ReportConfig) (b a : Option Walk) (rep : Report)
    (h : Compare cfg b a = some (Except.ok rep)) :
    List.Sorted (fun x y => afterPathD x ≤ afterPathD y) rep.added ∧
      List.Sorted (fun x y => beforePathD x ≤ beforePathD y) rep.deleted ∧
      List.Sorted (fun x y => beforePathD x ≤ beforePathD y) rep.modified ∧
      List.Sorted (fun x y => beforePathD x ≤ beforePathD y) rep.errors := by
  obtain ⟨wa, ds, ms, es, added, -, -, -, hrep⟩ := compare_ok_elim cfg b a rep h
  subst hrep
  exact ⟨sortByKey_sorted afterPathD added, sortByKey_sorted beforePathD ds,
    sortByKey_sorted beforePathD ms, sortByKey_sorted beforePathD es⟩

/-! ## Claim C1: classification of added, deleted and excluded paths -/

/-- Example report config with no exclusions. -/
def exCfg : ReportConfig := ⟨[]⟩

/-- Example: `/a` in the before walk, fingerprint `H1`. -/
def exFileA1 : File := ⟨1, "/a", ⟨"a", 1, 420, some 10, false⟩, none, [⟨FpMethod.SHA256, "H1"⟩]⟩

/-- Example: the directory `/b` present only in the before walk. -/
def exFileB : File := ⟨1, "/b", ⟨"b", 0, 420, some 10, true⟩, none, []⟩

/-- Example: `/a` in the after walk, fingerprint `H2`. -/
def exFileA2 : File := ⟨1, "/a", ⟨"a", 1, 420, some 10, false⟩, none, [⟨FpMethod.SHA256, "H2"⟩]⟩

/-- Example: `/c` present only in the after walk. -/
def exFileC : File := ⟨1, "/c", ⟨"c", 2, 420, some 10, false⟩, none, []⟩

/-- Example before walk (inventory A). -/
def exWalkA : Walk := ⟨"A", 1, "h", some 0, some 1, [exFileA1, exFileB]⟩

/-- Example after walk (inventory B). -/
def exWalkB : Walk := ⟨"B", 1, "h", some 2, some 3, [exFileA2, exFileC]⟩

/-- The directory entry after path normalization. -/
def exFileBNorm : File := { exFileB with path := "/b/" }

/-- The report `Compare` produces for the example walks. -/
def exReport : Report :=
  ⟨[⟨none, some exFileC, "", none⟩],
    [⟨some exFileBNorm, none, "", none⟩],
    [⟨some exFileA1, some exFileA2, "fingerprint: H1 => H2", none⟩],
    []⟩

/-- C1: for every successful comparison, a non-excluded normalized path
present in before and absent in after yields exactly one Deleted entry, a
non-excluded path present only in after yields exactly one Added entry, and
an excluded path yields no entry in any list; on the concrete example walks
the whole report (Modified `/a` with the `H1 => H2` fingerprint diff,
Deleted `/b/`, Added `/c`) is as the specification states. -/
theorem compare_classification :
    (∀ (cfg : ReportConfig) (wb wa : Walk) (rep : Report) (p : String),
      Compare cfg (some wb) (some wa) = some (Except.ok rep) →
      (((∃ f ∈ wb.file, NormalizePath f.path f.info.isDir = p) ∧
          isExcluded p cfg.exclude = some false ∧
          ¬(∃ f ∈ wa.file, NormalizePath f.path f.info.isDir = p)) →
        rep.deleted.countP (bPathIs p) = 1) ∧
      (((∃ f ∈ wa.file, NormalizePath f.path f.info.isDir = p) ∧
          isExcluded p cfg.exclude = some false ∧
          ¬(∃ f ∈ wb.file, NormalizePath f.path f.info.isDir = p)) →
        rep.added.countP (aPathIs p) = 1) ∧
      (isExcluded p cfg.exclude = some true →
        rep.added.countP (aPathIs p) = 0 ∧ rep.deleted.countP (bPathIs p) = 0 ∧
        rep.modified.countP (bPathIs p) = 0 ∧ rep.errors.countP (bPathIs p) = 0)) ∧
    Compare exCfg (some exWalkA) (some exWalkB) = some (Except.ok exReport) := by
  constructor
  · intro cfg wb wa rep p h
    obtain ⟨wa', ds, ms, es, added, hwa, hcb, hca, hrep⟩ :=
      compare_ok_elim cfg (some wb) (some wa) rep h
    have hwa' : wa = wa' := by
      injection hwa
    subst hwa'
    have hcb' : classifyB cfg.exclude (buildMap wa.file) (buildMap wb.file) =
        some (ds, ms, es) := hcb
    have hca' : classifyA cfg.exclude (buildMap wb.file) (buildMap wa.file) =
        some added := hca
    subst hrep
    refine ⟨?_, ?_, ?_⟩
    · rintro ⟨hin, hexf, hnotin⟩
      show (sortByKey beforePathD ds).countP (bPathIs p) = 1
      rw [countP_sortByKey]
      refine classifyB_countP_deleted cfg.exclude (buildMap wa.file) p hexf ?_
        (buildMap wb.file) ds ms es (buildMap_pairwise _) (buildMap_path _) ?_ hcb'
      · rw [lookupKV_eq_none, buildMap_keys]
        exact hnotin
      · exact (buildMap_keys _ _).mpr hin
    · rintro ⟨hin, hexf, hnotin⟩
      show (sortByKey afterPathD added).countP (aPathIs p) = 1
      rw [countP_sortByKey]
      refine classifyA_countP_added cfg.exclude (buildMap wb.file) p hexf ?_
        (buildMap wa.file) added (buildMap_pairwise _) (buildMap_path _) ?_ hca'
      · rw [lookupKV_eq_none, buildMap_keys]
        exact hnotin
      · exact (buildMap_keys _ _).mpr hin
    · intro hext
      have hB := classifyB_countP_excluded cfg.exclude (buildMap wa.file) p hext
        (buildMap wb.file) ds ms es (buildMap_path _) hcb'
      have hA := classifyA_countP_excluded cfg.exclude (buildMap wb.file) p hext
        (buildMap wa.file) added (buildMap_path _) hca'
      refine ⟨?_, ?_, ?_, ?_⟩
      · show (sortByKey afterPathD added).countP (aPathIs p) = 0
        rw [countP_sortByKey]
        exact hA
      · show (sortByKey beforePathD ds).countP (bPathIs p) = 0
        rw [countP_sortByKey]
        exact hB.1
      · show (sortByKey beforePathD ms).countP (bPathIs p) = 0
        rw [countP_sortByKey]
        exact hB.2.1
      · show (sortByKey beforePathD es).countP (bPathIs p) = 0
        rw [countP_sortByKey]
        exact hB.2.2
  · decide

theorem compare_classification_witness :
    exReport.deleted.countP (bPathIs "/b/") = 1 ∧
      exReport.added.countP (aPathIs "/c") = 1 :=
  ⟨(compare_classification.1 exCfg exWalkA exWalkB exReport "/b/" (by decide)).1 (by decide),
    (compare_classification.1 exCfg exWalkA exWalkB exReport "/c" (by decide)).2.1 (by decide)⟩

theorem report_lists_sorted_witness :
    List.Sorted (fun x y => afterPathD x ≤ afterPathD y) exReport.added ∧
      List.Sorted (fun x y => beforePathD x ≤ beforePathD y) exReport.deleted ∧
      List.Sorted (fun x y => beforePathD x ≤ beforePathD y) exReport.modified ∧
      List.Sorted (fun x y => beforePathD x ≤ beforePathD y) exReport.errors :=
  report_lists_sorted exCfg (some exWalkA) (some exWalkB) exReport (by decide)

theorem isExcluded_spec_witness :
    isExcluded "/tmp/foo" ["/tmp/"] = some true ↔
      ∃ e ∈ ["/tmp/"], ("/tmp/foo" : String) = e ∨
        (e.data.getLast? = some sepChar ∧
          e.data.isPrefixOf ((Dir "/tmp/foo").data ++ [sepChar]) = true) :=
  isExcluded_spec.1 "/tmp/foo" ["/tmp/"] (by decide)

theorem isExcluded_safety_witness :
    (isExcluded "/etc/passwd" ["/etc/"]).isSome = true :=
  isExcluded_safety.1 "/etc/passwd" ["/etc/"] (by decide)

theorem compare_error_conditions_witness :
    Compare exCfg (some exWalkA) (some exWalkA) =
      some (Except.error ("ID of both Walks is the same: " ++ exWalkA.id)) :=
  compare_error_conditions.2 exCfg exWalkA

theorem normalizePath_trailing_sep_witness :
    NormalizePath "/tmp/x" false = String.mk (cleanList ("/tmp/x" : String).data) ∧
      ((NormalizePath "/tmp/x" true).data.getLast? = some sepChar ↔
        (true = true ∨ cleanList ("/tmp/x" : String).data = [sepChar])) :=
  normalizePath_trailing_sep "/tmp/x" true

theorem normalizePath_idempotent_witness :
    NormalizePath (NormalizePath "/a/b/../c" true) true = NormalizePath "/a/b/../c" true :=
  normalizePath_idempotent "/a/b/../c" true

end Fswalker
